import Mathlib

/-!
Verification of the BPE core of zyth
(src/packages/tokenizer/benchmark_rust/src/main.rs).

Token ids (Rust u32) are modelled as natural numbers: the algorithm keeps ids
at 256 + table index, far below 2^32, so u32 wraparound is unreachable and the
Nat model is exact.  Word frequencies (Rust i32) are modelled as integers.
AHashMap values are modelled as total functions that are zero where the map has
no entry (entry(..).or_default() semantics); the map's unspecified iteration
order is modelled by quantifying over association-list orders.
-/

/-- Ordered token pair, the source's type Pair = (u32, u32). -/
abbrev Pair := ℕ × ℕ

/-- The while loop of Word.merge_pair (main.rs lines 28-38): index i scans ids,
out accumulates the rewritten word; on a match push the new id c and advance
two positions, otherwise push the current token and advance one. -/
def mergePairGo (ids : List ℕ) (a b c : ℕ) (i : ℕ) (out : List ℕ) : List ℕ :=
  if _h : i < ids.length then
    if i + 1 < ids.length ∧ ids.getD i 0 = a ∧ ids.getD (i + 1) 0 = b then
      mergePairGo ids a b c (i + 2) (out ++ [c])
    else
      mergePairGo ids a b c (i + 1) (out ++ [ids.getD i 0])
  else out
termination_by ids.length - i
decreasing_by
  all_goals omega

/-- Word.merge_pair (main.rs lines 21-40): early return when the word has fewer
than two tokens, otherwise the greedy left-to-right loop. -/
def mergePair (ids : List ℕ) (a b c : ℕ) : List ℕ :=
  if ids.length < 2 then ids else mergePairGo ids a b c 0 []

/-- The greedy non-overlapping scan as the specification words it (spec 4.4):
at each position, if the current and next token match the pair exactly, emit
the new id and advance two positions; otherwise emit the current token and
advance one position. -/
def mergeScan : List ℕ → ℕ → ℕ → ℕ → List ℕ
  | x :: y :: t, a, b, c =>
    if x = a ∧ y = b then c :: mergeScan t a b c
    else x :: mergeScan (y :: t) a b c
  | l, _, _, _ => l

/-- Word.pairs (main.rs lines 18-20): the adjacent pairs of a token sequence,
ids.windows(2) rendered as zip with the tail. -/
def pairsOf (w : List ℕ) : List Pair := w.zip w.tail

/-- One update of a local pair-count map, modelling
local_pc.entry(pair).or_default() += cnt with the AHashMap as a total
function that is zero where no key is present. -/
def bump (m : Pair → ℤ) (q : Pair) (cnt : ℤ) : Pair → ℤ :=
  fun p => if p = q then m p + cnt else m p

/-- The local map built for one word (main.rs lines 47-53): empty unless the
word has at least two tokens and a nonzero count, else one bump per adjacent
pair. -/
def localCount (w : List ℕ) (cnt : ℤ) : Pair → ℤ :=
  if 2 ≤ w.length ∧ cnt ≠ 0 then
    (pairsOf w).foldl (fun m q => bump m q cnt) (fun _ => 0)
  else fun _ => 0

/-- The reduce step merging two partial maps by elementwise addition
(main.rs lines 56-63). -/
def addMaps (m1 m2 : Pair → ℤ) : Pair → ℤ := fun p => m1 p + m2 p

/-- count_pairs_parallel (main.rs lines 43-65).  The rayon map-reduce is
written here as a left fold over the words in order;
countPairs_parallel_refines shows that every partitioning and merge order of
the reduction yields this same map. -/
def countPairs (words : List (List ℕ)) (counts : List ℤ) : Pair → ℤ :=
  ((words.zip counts).map (fun wc => localCount wc.1 wc.2)).foldl addMaps
    (fun _ => 0)

/-- Reference pair-frequency map, following the claim's words: for every index
i with counts i nonzero and at least two tokens in words i, each adjacent pair
of words i contributes counts i; other words contribute nothing. -/
def refCount (words : List (List ℕ)) (counts : List ℤ) (p : Pair) : ℤ :=
  ((words.zip counts).map (fun wc =>
    if wc.2 ≠ 0 ∧ 2 ≤ wc.1.length then
      ((pairsOf wc.1).map (fun q => if q = p then wc.2 else 0)).sum
    else 0)).sum

/-- The local map of the word at index i. -/
def localAt (words : List (List ℕ)) (counts : List ℤ) (i : ℕ) : Pair → ℤ :=
  localCount (words.getD i []) (counts.getD i 0)

/-- The partial map one partition of word indices computes before the merge
step of the reduction. -/
def partCount (words : List (List ℕ)) (counts : List ℤ) (part : List ℕ) :
    Pair → ℤ :=
  (part.map (localAt words counts)).foldl addMaps (fun _ => 0)

/-- Models pair_counts.iter().max_by_key(..) (main.rs lines 112-115) over one
iteration order of the map, given as an association list; like
Iterator::max_by_key it keeps the later of two entries with equal counts. -/
def maxEntry : List (Pair × ℤ) → Option (Pair × ℤ)
  | [] => none
  | e :: rest =>
    match maxEntry rest with
    | none => some e
    | some m => if e.2 ≤ m.2 then some m else some e

/-- best_pair (main.rs lines 112-115): the selected pair of the maximal entry. -/
def selectPair (l : List (Pair × ℤ)) : Option Pair := (maxEntry l).map Prod.fst

/-- merges.iter().position(|&p| p == pair) (main.rs line 155): index of the
first occurrence.  The source unwraps the Option; the searched pair is always
drawn from the same list, so a match always exists there. -/
def positionOf (p : Pair) : List Pair → ℕ
  | [] => 0
  | q :: rest => if q = p then 0 else positionOf p rest + 1

/-- The encode loop of the benchmark (main.rs lines 153-168): for each pair of
the merge table in order, recompute the id as 256 plus the position found by
merges.iter().position(..) — the first index of that pair — then run the
greedy rewrite loop. -/
def encodeCode (merges : List Pair) (text : List ℕ) : List ℕ :=
  merges.foldl (fun tokens pair =>
    mergePairGo tokens pair.1 pair.2 (256 + positionOf pair merges) 0 []) text

/-- Encoder as the specification words it (spec 4.6): each rule is applied in
table order substituting that rule's own new id, 256 plus the rule's index. -/
def encodeByRuleId (merges : List Pair) (text : List ℕ) : List ℕ :=
  merges.enum.foldl (fun tokens ir =>
    mergeScan tokens ir.2.1 ir.2.2 (256 + ir.1)) text

/-- Table application where rule k, k+1, ... carry ids 256+k, 256+k+1, ... -/
def applyOwn : ℕ → List Pair → List ℕ → List ℕ
  | _, [], text => text
  | k, p :: rest, text => applyOwn (k + 1) rest (mergeScan text p.1 p.2 (256 + k))

/-- State of the training loop (main.rs lines 96-127): the mutable word set,
the immutable per-word counts, and the merge table together with the new id
each push assigned (new_id = 256 + merges.len() at push time, line 117). -/
structure TrainState where
  words : List (List ℕ)
  counts : List ℤ
  merges : List (Pair × ℕ)

/-- The pair p is a key of the count map: some word with a nonzero count and
at least two tokens contains it adjacently (main.rs lines 48-52). -/
def pairInCounts (words : List (List ℕ)) (counts : List ℤ) (p : Pair) : Prop :=
  ∃ i, i < words.length ∧ 2 ≤ (words.getD i []).length ∧
    counts.getD i 0 ≠ 0 ∧ p ∈ pairsOf (words.getD i [])

/-- One iteration of the training loop that found a best pair (main.rs lines
109-122): any key of the count map may be selected — this abstracts the
hash-order-dependent argmax soundly, since max_by_key returns a key of the
map — then new_id = 256 + merges.len() is pushed and every word is rewritten
by merge_pair. -/
inductive Step : TrainState → TrainState → Prop
  | merge (s : TrainState) (p : Pair)
      (hp : pairInCounts s.words s.counts p) :
      Step s ⟨s.words.map (fun w => mergePair w p.1 p.2 (256 + s.merges.length)),
        s.counts,
        s.merges ++ [(p, 256 + s.merges.length)]⟩

/-- The training loop run with an iteration budget (for _ in 0..num_merges,
main.rs line 109): either the budget is exhausted, or an iteration merges and
the loop continues, or no pair is available and the loop breaks (line 124). -/
inductive Run : ℕ → TrainState → TrainState → Prop
  | zero (s : TrainState) : Run 0 s s
  | succ (n : ℕ) (s s' s'' : TrainState) : Step s s' → Run n s' s'' →
      Run (n + 1) s s''
  | halt (n : ℕ) (s : TrainState)
      (h : ∀ p, ¬ pairInCounts s.words s.counts p) : Run (n + 1) s s

/-- num_merges = vocab_size - 256 (main.rs line 105): with i32 arithmetic a
vocab_size below 256 makes the range 0..num_merges empty, modelled by toNat. -/
def numMerges (vocabSize : ℤ) : ℕ := (vocabSize - 256).toNat

/-- A training start state: an empty merge table and words built from raw
bytes, every token below 256 (main.rs lines 89-96). -/
def initState (s : TrainState) : Prop :=
  s.merges = [] ∧ ∀ w ∈ s.words, ∀ t ∈ w, t < 256

/-- Invariant: the stored new ids are 256, 257, ... in table order. -/
def newIdsOk (s : TrainState) : Prop :=
  s.merges.map Prod.snd = (List.range s.merges.length).map (fun i => 256 + i)

/-- The full training invariant: every token of every word is below the next
fresh id, the stored new ids are 256 + index, each rule's pair components are
below its new id, no already-merged pair is adjacent in any word, and the
table holds no pair twice. -/
def TrainInv (s : TrainState) : Prop :=
  (∀ w ∈ s.words, ∀ t ∈ w, t < 256 + s.merges.length) ∧
  newIdsOk s ∧
  (∀ r ∈ s.merges, r.1.1 < r.2 ∧ r.1.2 < r.2) ∧
  (∀ r ∈ s.merges, ∀ w ∈ s.words, r.1 ∉ pairsOf w) ∧
  (s.merges.map Prod.fst).Nodup

/-- Concrete one-word start state used by the run witnesses. -/
def wState0 : TrainState := ⟨[[97, 97]], [1], []⟩

/-- The state wState0 reaches after merging the pair (97, 97). -/
def wState1 : TrainState :=
  ⟨[mergePair [97, 97] 97 97 256], [1], [((97, 97), 256)]⟩

lemma mergeScan_nil (a b c : ℕ) : mergeScan [] a b c = [] := rfl

lemma mergeScan_single (x a b c : ℕ) : mergeScan [x] a b c = [x] := rfl

lemma mergeScan_cons₂ (x y : ℕ) (t : List ℕ) (a b c : ℕ) :
    mergeScan (x :: y :: t) a b c =
      if x = a ∧ y = b then c :: mergeScan t a b c
      else x :: mergeScan (y :: t) a b c := rfl

/-- Two-step list induction matching the recursion pattern of mergeScan. -/
lemma twoStepInduction {P : List ℕ → Prop} (h0 : P []) (h1 : ∀ x, P [x])
    (h2 : ∀ x y t, P t → P (y :: t) → P (x :: y :: t)) : ∀ l, P l := by
  have key : ∀ n (l : List ℕ), l.length ≤ n → P l := by
    intro n
    induction n with
    | zero =>
      intro l hl
      cases l with
      | nil => exact h0
      | cons x t => simp at hl
    | succ n ih =>
      intro l hl
      match l with
      | [] => exact h0
      | [x] => exact h1 x
      | x :: y :: t =>
        exact h2 x y t (ih t (by simp at hl ⊢; omega))
          (ih (y :: t) (by simp at hl ⊢; omega))
  exact fun l => key l.length l le_rfl

lemma pairsOf_nil : pairsOf [] = [] := rfl

lemma pairsOf_single (x : ℕ) : pairsOf [x] = [] := rfl

lemma pairsOf_cons₂ (x y : ℕ) (t : List ℕ) :
    pairsOf (x :: y :: t) = (x, y) :: pairsOf (y :: t) := rfl

lemma pairsOf_cons_of_mem {u v : ℕ} (y : ℕ) {t : List ℕ}
    (h : (u, v) ∈ pairsOf t) : (u, v) ∈ pairsOf (y :: t) := by
  cases t with
  | nil => simp [pairsOf_nil] at h
  | cons z t' =>
    rw [pairsOf_cons₂]
    exact List.mem_cons_of_mem _ h

lemma mem_of_mem_pairsOf {u v : ℕ} {w : List ℕ} (h : (u, v) ∈ pairsOf w) :
    u ∈ w ∧ v ∈ w := by
  have h' := List.of_mem_zip h
  exact ⟨h'.1, List.mem_of_mem_tail h'.2⟩

/-- The head of a merge scan over a non-empty list is either the new id or the
original head. -/
lemma mergeScan_head (y : ℕ) (t : List ℕ) (a b c : ℕ) :
    (∃ r, mergeScan (y :: t) a b c = c :: r) ∨
      (∃ r, mergeScan (y :: t) a b c = y :: r) := by
  cases t with
  | nil => exact Or.inr ⟨[], rfl⟩
  | cons z t' =>
    by_cases h : y = a ∧ z = b
    · exact Or.inl ⟨_, by rw [mergeScan_cons₂, if_pos h]⟩
    · exact Or.inr ⟨_, by rw [mergeScan_cons₂, if_neg h]⟩

/-- Every token of the rewritten word is an original token or the new id. -/
lemma mem_mergeScan (a b c : ℕ) :
    ∀ l, ∀ t' ∈ mergeScan l a b c, t' ∈ l ∨ t' = c := by
  refine twoStepInduction (by simp [mergeScan_nil]) (by simp [mergeScan_single]) ?_
  intro x y t iht ihyt t' ht'
  rw [mergeScan_cons₂] at ht'
  by_cases h : x = a ∧ y = b
  · rw [if_pos h] at ht'
    rcases List.mem_cons.mp ht' with h1 | h1
    · exact Or.inr h1
    · rcases iht t' h1 with h2 | h2
      · exact Or.inl (by simp [h2])
      · exact Or.inr h2
  · rw [if_neg h] at ht'
    rcases List.mem_cons.mp ht' with h1 | h1
    · exact Or.inl (by simp [h1])
    · rcases ihyt t' h1 with h2 | h2
      · exact Or.inl (List.mem_cons_of_mem _ h2)
      · exact Or.inr h2

/-- The rewritten word is never longer than the original. -/
lemma mergeScan_length_le (a b c : ℕ) :
    ∀ l, (mergeScan l a b c).length ≤ l.length := by
  refine twoStepInduction (by simp [mergeScan_nil]) (by simp [mergeScan_single]) ?_
  intro x y t iht ihyt
  rw [mergeScan_cons₂]
  by_cases h : x = a ∧ y = b
  · rw [if_pos h]
    simp only [List.length_cons]
    omega
  · rw [if_neg h]
    simp only [List.length_cons] at ihyt ⊢
    omega

/-- If the targeted pair occurs, the rewritten word is strictly shorter. -/
lemma mergeScan_length_lt (a b c : ℕ) :
    ∀ l, (a, b) ∈ pairsOf l → (mergeScan l a b c).length < l.length := by
  refine twoStepInduction (by simp [pairsOf_nil]) (by simp [pairsOf_single]) ?_
  intro x y t iht ihyt hmem
  rw [mergeScan_cons₂]
  by_cases h : x = a ∧ y = b
  · rw [if_pos h]
    have := mergeScan_length_le a b c t
    simp only [List.length_cons]
    omega
  · rw [if_neg h]
    rw [pairsOf_cons₂] at hmem
    rcases List.mem_cons.mp hmem with h1 | h1
    · have hax : a = x := congrArg Prod.fst h1
      have hby : b = y := congrArg Prod.snd h1
      exact absurd ⟨hax.symm, hby.symm⟩ h
    · have := ihyt h1
      simp only [List.length_cons] at this ⊢
      omega

/-- After the pass, the targeted pair is gone whenever the new id differs from
both components (spec data-model invariant 3). -/
lemma mergeScan_no_pair {a b c : ℕ} (ha : c ≠ a) (hb : c ≠ b) :
    ∀ l, (a, b) ∉ pairsOf (mergeScan l a b c) := by
  refine twoStepInduction (by simp [mergeScan_nil, pairsOf_nil])
    (by simp [mergeScan_single, pairsOf_single]) ?_
  intro x y t iht ihyt hmem
  rw [mergeScan_cons₂] at hmem
  by_cases h : x = a ∧ y = b
  · rw [if_pos h] at hmem
    rcases hr : mergeScan t a b c with _ | ⟨w, r⟩
    · rw [hr] at hmem
      simp [pairsOf_single] at hmem
    · rw [hr, pairsOf_cons₂] at hmem
      rcases List.mem_cons.mp hmem with h1 | h1
      · exact ha (congrArg Prod.fst h1).symm
      · exact iht (by rw [hr]; exact h1)
  · rw [if_neg h] at hmem
    rcases mergeScan_head y t a b c with ⟨r, hr⟩ | ⟨r, hr⟩
    · rw [hr, pairsOf_cons₂] at hmem
      rcases List.mem_cons.mp hmem with h1 | h1
      · exact hb (congrArg Prod.snd h1).symm
      · exact ihyt (hr ▸ h1)
    · rw [hr, pairsOf_cons₂] at hmem
      rcases List.mem_cons.mp hmem with h1 | h1
      · exact h ⟨(congrArg Prod.fst h1).symm, (congrArg Prod.snd h1).symm⟩
      · exact ihyt (hr ▸ h1)

/-- The pass creates no adjacency that avoids the new id: any adjacent pair of
the output not mentioning c was already adjacent in the input. -/
lemma mergeScan_pair_of_pair {a b c u v : ℕ} (hu : u ≠ c) (hv : v ≠ c) :
    ∀ l, (u, v) ∈ pairsOf (mergeScan l a b c) → (u, v) ∈ pairsOf l := by
  refine twoStepInduction (by simp [mergeScan_nil])
    (by simp [mergeScan_single]) ?_
  intro x y t iht ihyt hmem
  rw [mergeScan_cons₂] at hmem
  by_cases h : x = a ∧ y = b
  · rw [if_pos h] at hmem
    rcases hr : mergeScan t a b c with _ | ⟨w, r⟩
    · rw [hr] at hmem
      simp [pairsOf_single] at hmem
    · rw [hr, pairsOf_cons₂] at hmem
      rcases List.mem_cons.mp hmem with h1 | h1
      · exact absurd (congrArg Prod.fst h1) hu
      · have := iht (by rw [hr]; exact h1)
        rw [pairsOf_cons₂]
        exact List.mem_cons_of_mem _ (pairsOf_cons_of_mem _ this)
  · rw [if_neg h] at hmem
    rcases mergeScan_head y t a b c with ⟨r, hr⟩ | ⟨r, hr⟩
    · rw [hr, pairsOf_cons₂] at hmem
      rcases List.mem_cons.mp hmem with h1 | h1
      · exact absurd (congrArg Prod.snd h1) hv
      · have := ihyt (hr ▸ h1)
        rw [pairsOf_cons₂]
        exact List.mem_cons_of_mem _ this
    · rw [hr, pairsOf_cons₂] at hmem
      rcases List.mem_cons.mp hmem with h1 | h1
      · rw [pairsOf_cons₂]
        exact List.mem_cons.mpr (Or.inl h1)
      · have := ihyt (hr ▸ h1)
        rw [pairsOf_cons₂]
        exact List.mem_cons_of_mem _ this

lemma drop_eq_getD_cons : ∀ (l : List ℕ) (i : ℕ), i < l.length →
    l.drop i = l.getD i 0 :: l.drop (i + 1) := by
  intro l
  induction l with
  | nil => intro i h; simp at h
  | cons x t ih =>
    intro i h
    cases i with
    | zero => simp
    | succ j =>
      have := ih j (by simpa using h)
      simpa using this

/-- The index loop starting at i, with accumulator out, computes out followed
by the greedy scan of the remaining suffix. -/
lemma mergePairGo_eq_scan (a b c : ℕ) :
    ∀ (fuel : ℕ) (ids : List ℕ) (i : ℕ) (out : List ℕ),
      ids.length - i ≤ fuel →
      mergePairGo ids a b c i out = out ++ mergeScan (ids.drop i) a b c := by
  intro fuel
  induction fuel with
  | zero =>
    intro ids i out hf
    have hi : ¬ i < ids.length := by omega
    rw [mergePairGo, dif_neg hi]
    rw [List.drop_eq_nil_of_le (by omega), mergeScan_nil, List.append_nil]
  | succ fuel ih =>
    intro ids i out hf
    by_cases hi : i < ids.length
    · rw [mergePairGo, dif_pos hi]
      by_cases hc : i + 1 < ids.length ∧ ids.getD i 0 = a ∧ ids.getD (i + 1) 0 = b
      · rw [if_pos hc]
        have hd1 : ids.drop i = ids.getD i 0 :: ids.drop (i + 1) :=
          drop_eq_getD_cons ids i hi
        have hd2 : ids.drop (i + 1) = ids.getD (i + 1) 0 :: ids.drop (i + 2) :=
          drop_eq_getD_cons ids (i + 1) hc.1
        rw [ih ids (i + 2) (out ++ [c]) (by omega)]
        rw [hd1, hd2, hc.2.1, hc.2.2, mergeScan_cons₂, if_pos ⟨rfl, rfl⟩]
        simp
      · rw [if_neg hc]
        have hd1 : ids.drop i = ids.getD i 0 :: ids.drop (i + 1) :=
          drop_eq_getD_cons ids i hi
        rw [ih ids (i + 1) (out ++ [ids.getD i 0]) (by omega)]
        by_cases h1 : i + 1 < ids.length
        · have hd2 : ids.drop (i + 1) = ids.getD (i + 1) 0 :: ids.drop (i + 2) :=
            drop_eq_getD_cons ids (i + 1) h1
          have hne : ¬ (ids.getD i 0 = a ∧ ids.getD (i + 1) 0 = b) := by
            intro h2
            exact hc ⟨h1, h2⟩
          rw [hd1, hd2, mergeScan_cons₂, if_neg hne, ← hd2]
          simp
        · have hd2 : ids.drop (i + 1) = [] :=
            List.drop_eq_nil_of_le (by omega)
          rw [hd1, hd2, mergeScan_single, mergeScan_nil]
          simp
    · rw [mergePairGo, dif_neg hi]
      rw [List.drop_eq_nil_of_le (by omega), mergeScan_nil, List.append_nil]

/-- The loop of merge_pair from position 0 is exactly the greedy scan. -/
lemma mergePairGo_zero (ids : List ℕ) (a b c : ℕ) :
    mergePairGo ids a b c 0 [] = mergeScan ids a b c := by
  rw [mergePairGo_eq_scan a b c ids.length ids 0 [] (by omega)]
  simp

/-- Word.merge_pair agrees with the greedy scan on every input; the early
return for words of fewer than two tokens changes nothing. -/
lemma mergePair_eq_scan (ids : List ℕ) (a b c : ℕ) :
    mergePair ids a b c = mergeScan ids a b c := by
  rw [mergePair]
  by_cases h : ids.length < 2
  · match ids, h with
    | [], _ => simp [mergeScan_nil]
    | [x], _ => simp [mergeScan_single]
  · rw [if_neg h, mergePairGo_zero]

lemma bump_foldl (cnt : ℤ) (p : Pair) :
    ∀ (ps : List Pair) (m : Pair → ℤ),
      ((ps.foldl (fun m q => bump m q cnt) m) p) = m p + cnt * ps.count p := by
  intro ps
  induction ps with
  | nil => intro m; simp
  | cons q ps' ih =>
    intro m
    rw [List.foldl_cons, ih]
    by_cases h : p = q
    · simp [bump, h, List.count_cons]
      ring
    · have h' : ¬ q = p := fun hq => h hq.symm
      simp [bump, h, h', List.count_cons]

lemma localCount_apply (w : List ℕ) (cnt : ℤ) (p : Pair) :
    localCount w cnt p =
      if 2 ≤ w.length ∧ cnt ≠ 0 then cnt * ((pairsOf w).count p) else 0 := by
  rw [localCount]
  by_cases h : 2 ≤ w.length ∧ cnt ≠ 0
  · rw [if_pos h, if_pos h, bump_foldl]
    simp
  · rw [if_neg h, if_neg h]

lemma indicator_sum (p : Pair) (cnt : ℤ) :
    ∀ ps : List Pair,
      ((ps.map (fun q => if q = p then cnt else 0)).sum) = cnt * ps.count p := by
  intro ps
  induction ps with
  | nil => simp
  | cons q ps' ih =>
    rw [List.map_cons, List.sum_cons, ih]
    by_cases h : p = q
    · simp [h, List.count_cons]
      ring
    · have h' : ¬ q = p := fun hq => h hq.symm
      simp [h, h', List.count_cons]

lemma foldl_addMaps_apply (p : Pair) :
    ∀ (ms : List (Pair → ℤ)) (m0 : Pair → ℤ),
      (ms.foldl addMaps m0) p = m0 p + (ms.map (fun m => m p)).sum := by
  intro ms
  induction ms with
  | nil => intro m0; simp
  | cons m ms' ih =>
    intro m0
    rw [List.foldl_cons, ih]
    simp [addMaps]
    ring

lemma countPairs_apply (words : List (List ℕ)) (counts : List ℤ) (p : Pair) :
    countPairs words counts p =
      ((words.zip counts).map (fun wc => localCount wc.1 wc.2 p)).sum := by
  rw [countPairs, foldl_addMaps_apply]
  simp only [List.map_map, zero_add]
  rfl

lemma partCount_apply (words : List (List ℕ)) (counts : List ℤ)
    (part : List ℕ) (p : Pair) :
    partCount words counts part p =
      (part.map (fun i => localAt words counts i p)).sum := by
  rw [partCount, foldl_addMaps_apply]
  simp only [List.map_map, zero_add]
  rfl

lemma countPairs_eq_range_sum :
    ∀ (words : List (List ℕ)) (counts : List ℤ), counts.length = words.length →
      ∀ p, countPairs words counts p =
        ((List.range words.length).map (fun i => localAt words counts i p)).sum := by
  intro words
  induction words with
  | nil =>
    intro counts h p
    simp [countPairs_apply]
  | cons w ws ih =>
    intro counts h p
    match counts, h with
    | c :: cs, h =>
      rw [countPairs_apply]
      simp only [List.zip_cons_cons, List.map_cons, List.sum_cons]
      have hcs : cs.length = ws.length := by simpa using h
      have hrec := ih cs hcs p
      rw [countPairs_apply] at hrec
      rw [List.length_cons, List.range_succ_eq_map, List.map_cons, List.sum_cons]
      have hloc : localAt (w :: ws) (c :: cs) 0 p = localCount w c p := by
        simp [localAt]
      have hmap : ((List.range ws.length).map Nat.succ).map
            (fun i => localAt (w :: ws) (c :: cs) i p) =
          (List.range ws.length).map (fun i => localAt ws cs i p) := by
        rw [List.map_map]
        refine List.map_congr_left ?_
        intro i _
        simp [localAt, Function.comp]
      rw [hloc, hmap, ← hrec]

/-- maxEntry of a non-empty iteration order returns an entry of the list whose
count bounds every entry's count. -/
lemma maxEntry_max : ∀ l : List (Pair × ℤ), l ≠ [] →
    ∃ e, e ∈ l ∧ maxEntry l = some e ∧ ∀ x ∈ l, x.2 ≤ e.2 := by
  intro l
  induction l with
  | nil => intro h; exact absurd rfl h
  | cons e rest ih =>
    intro _
    cases rest with
    | nil =>
      refine ⟨e, List.mem_cons_self e [], rfl, ?_⟩
      intro x hx
      rcases List.mem_cons.mp hx with h | h
      · rw [h]
      · simp at h
    | cons f rest' =>
      obtain ⟨m, hm, hmax, hbound⟩ := ih (by simp)
      by_cases hle : e.2 ≤ m.2
      · have hunf : maxEntry (e :: f :: rest') = some m := by
          show (match maxEntry (f :: rest') with
            | none => some e
            | some m => if e.2 ≤ m.2 then some m else some e) = some m
          rw [hmax]
          simp [hle]
        refine ⟨m, List.mem_cons_of_mem _ hm, hunf, ?_⟩
        intro x hx
        rcases List.mem_cons.mp hx with h | h
        · rw [h]; exact hle
        · exact hbound x h
      · have hunf : maxEntry (e :: f :: rest') = some e := by
          show (match maxEntry (f :: rest') with
            | none => some e
            | some m => if e.2 ≤ m.2 then some m else some e) = some e
          rw [hmax]
          simp [hle]
        refine ⟨e, List.mem_cons_self e _, hunf, ?_⟩
        intro x hx
        rcases List.mem_cons.mp hx with h | h
        · rw [h]
        · have := hbound x h
          omega

/-- When one entry strictly dominates all others, maxEntry returns it no
matter the iteration order. -/
lemma maxEntry_unique {l : List (Pair × ℤ)} {e : Pair × ℤ} (he : e ∈ l)
    (hu : ∀ x ∈ l, x ≠ e → x.2 < e.2) : maxEntry l = some e := by
  obtain ⟨m, hm, hmax, hbound⟩ := maxEntry_max l (List.ne_nil_of_mem he)
  by_cases hme : m = e
  · rw [hme] at hmax
    exact hmax
  · have h1 := hu m hm hme
    have h2 := hbound e he
    omega

lemma positionOf_append_cons {p : Pair} : ∀ (done : List Pair), p ∉ done →
    ∀ rest, positionOf p (done ++ p :: rest) = done.length := by
  intro done
  induction done with
  | nil => intro _ rest; simp [positionOf]
  | cons d done' ih =>
    intro hnd rest
    have hdp : ¬ d = p := fun h => hnd (by rw [h]; exact List.mem_cons_self p done')
    rw [List.cons_append]
    show (if d = p then 0 else positionOf p (done' ++ p :: rest) + 1) =
      (d :: done').length
    rw [if_neg hdp, ih (fun h => hnd (List.mem_cons_of_mem _ h)) rest]
    simp

/-- The encode loop rewritten through the greedy scan. -/
lemma encode_scan_fold (merges : List Pair) (text : List ℕ) :
    encodeCode merges text = merges.foldl
      (fun ts p => mergeScan ts p.1 p.2 (256 + positionOf p merges)) text := by
  rw [encodeCode]
  refine List.foldl_ext _ _ _ ?_
  intro ts p _
  rw [mergePairGo_zero]

lemma enumFrom_foldl_applyOwn :
    ∀ (l : List Pair) (k : ℕ) (text : List ℕ),
      (List.enumFrom k l).foldl
        (fun tokens ir => mergeScan tokens ir.2.1 ir.2.2 (256 + ir.1)) text =
      applyOwn k l text := by
  intro l
  induction l with
  | nil => intro k text; rfl
  | cons p rest ih =>
    intro k text
    have h : List.enumFrom k (p :: rest) = (k, p) :: List.enumFrom (k + 1) rest :=
      rfl
    rw [h, List.foldl_cons, ih]
    rfl

lemma encodeByRuleId_eq_applyOwn (merges : List Pair) (text : List ℕ) :
    encodeByRuleId merges text = applyOwn 0 merges text := by
  rw [encodeByRuleId]
  have h : merges.enum = List.enumFrom 0 merges := rfl
  rw [h, enumFrom_foldl_applyOwn]

/-- On a duplicate-free table, looking the id up by first position agrees with
using each rule's own position. -/
lemma encode_fold_applyOwn :
    ∀ (todo done : List Pair) (text : List ℕ), (done ++ todo).Nodup →
      todo.foldl
        (fun ts p => mergeScan ts p.1 p.2 (256 + positionOf p (done ++ todo)))
        text = applyOwn done.length todo text := by
  intro todo
  induction todo with
  | nil => intro done text _; rfl
  | cons p rest ih =>
    intro done text h
    rw [List.foldl_cons]
    have hpd : p ∉ done := by
      rw [List.nodup_append] at h
      exact fun hmem => h.2.2 hmem (List.mem_cons_self p rest)
    have hidx : positionOf p (done ++ p :: rest) = done.length :=
      positionOf_append_cons done hpd rest
    rw [hidx]
    have hl : done ++ p :: rest = (done ++ [p]) ++ rest := by simp
    rw [hl]
    have h2 : ((done ++ [p]) ++ rest).Nodup := hl ▸ h
    rw [ih (done ++ [p]) (mergeScan text p.1 p.2 (256 + done.length)) h2]
    simp [applyOwn]

lemma foldl_nil_invariant {f : List ℕ → Pair → List ℕ}
    (hf : ∀ p, f [] p = []) : ∀ l : List Pair, l.foldl f [] = [] := by
  intro l
  induction l with
  | nil => rfl
  | cons p rest ih =>
    rw [List.foldl_cons, hf, ih]

lemma mem_of_mem_pairsOf₂ {q : Pair} {w : List ℕ} (h : q ∈ pairsOf w) :
    q.1 ∈ w ∧ q.2 ∈ w := by
  obtain ⟨u, v⟩ := q
  exact mem_of_mem_pairsOf h

lemma pairInCounts_exists_word {words : List (List ℕ)} {counts : List ℤ}
    {p : Pair} (h : pairInCounts words counts p) :
    ∃ w ∈ words, p ∈ pairsOf w := by
  obtain ⟨i, hi, _, _, hp⟩ := h
  refine ⟨words.getD i [], ?_, hp⟩
  rw [List.getD_eq_getElem _ _ hi]
  exact List.getElem_mem hi

lemma step_merges_length {s s' : TrainState} (h : Step s s') :
    s'.merges.length = s.merges.length + 1 := by
  cases h with
  | merge p hp => simp

lemma run_merges_length {n : ℕ} {s s' : TrainState} (h : Run n s s') :
    s'.merges.length ≤ s.merges.length + n := by
  induction h with
  | zero s => omega
  | succ n s s' s'' hstep hrun ih =>
    have := step_merges_length hstep
    omega
  | halt n s h => omega

lemma run_invariant {P : TrainState → Prop}
    (hstep : ∀ s s', Step s s' → P s → P s') :
    ∀ {n : ℕ} {s s' : TrainState}, Run n s s' → P s → P s' := by
  intro n s s' h
  induction h with
  | zero s => exact id
  | succ n s s' s'' hst hrun ih => exact fun hp => ih (hstep _ _ hst hp)
  | halt n s h => exact id

lemma step_newIdsOk : ∀ s s', Step s s' → newIdsOk s → newIdsOk s' := by
  intro s s' h hok
  cases h with
  | merge p hp =>
    show (s.merges ++ [(p, 256 + s.merges.length)]).map Prod.snd =
      (List.range (s.merges ++ [(p, 256 + s.merges.length)]).length).map
        (fun i => 256 + i)
    rw [List.map_append, hok, List.length_append]
    simp [List.range_succ]

lemma newIdsOk_mem_lt {s : TrainState} (h : newIdsOk s) :
    ∀ r ∈ s.merges, r.2 < 256 + s.merges.length := by
  intro r hr
  have hmem : r.2 ∈ s.merges.map Prod.snd := List.mem_map_of_mem _ hr
  rw [h] at hmem
  obtain ⟨i, hi, hv⟩ := List.mem_map.mp hmem
  have := List.mem_range.mp hi
  omega

lemma inv_step : ∀ s s', Step s s' → TrainInv s → TrainInv s' := by
  intro s s' h hinv
  obtain ⟨hA, hB, hC, hD, hE⟩ := hinv
  cases h with
  | merge p hp =>
    obtain ⟨w0, hw0, hpw0⟩ := pairInCounts_exists_word hp
    have hp1 : p.1 < 256 + s.merges.length :=
      hA w0 hw0 p.1 (mem_of_mem_pairsOf₂ hpw0).1
    have hp2 : p.2 < 256 + s.merges.length :=
      hA w0 hw0 p.2 (mem_of_mem_pairsOf₂ hpw0).2
    refine ⟨?_, step_newIdsOk s _ (Step.merge s p hp) hB, ?_, ?_, ?_⟩
    · intro w' hw' t ht
      simp only [List.mem_map] at hw'
      obtain ⟨w, hw, hw'eq⟩ := hw'
      rw [← hw'eq, mergePair_eq_scan] at ht
      rcases mem_mergeScan _ _ _ w t ht with h1 | h1
      · have := hA w hw t h1
        simp only [List.length_append, List.length_cons, List.length_nil]
        omega
      · simp only [List.length_append, List.length_cons, List.length_nil]
        omega
    · intro r hr
      rcases List.mem_append.mp hr with h1 | h1
      · exact hC r h1
      · have : r = (p, 256 + s.merges.length) := by simpa using h1
        rw [this]
        exact ⟨hp1, hp2⟩
    · intro r hr w' hw'
      simp only [List.mem_map] at hw'
      obtain ⟨w, hw, hw'eq⟩ := hw'
      rw [← hw'eq, mergePair_eq_scan]
      rcases List.mem_append.mp hr with h1 | h1
      · have hr2 : r.2 < 256 + s.merges.length := newIdsOk_mem_lt hB r h1
        have hcomp := hC r h1
        intro hcon
        have : r.1 ∈ pairsOf w := by
          have := mergeScan_pair_of_pair
            (u := r.1.1) (v := r.1.2)
            (by omega) (by omega) w hcon
          exact this
        exact hD r h1 w hw this
      · have hreq : r = (p, 256 + s.merges.length) := by simpa using h1
        rw [hreq]
        exact mergeScan_no_pair (by omega) (by omega) w
    · simp only [List.map_append, List.map_cons, List.map_nil]
      rw [List.nodup_append]
      refine ⟨hE, List.nodup_singleton _, ?_⟩
      intro q hq hq2
      have hqp : q = p := by simpa using hq2
      obtain ⟨r, hr, hrq⟩ := List.mem_map.mp hq
      rw [hqp] at hrq
      exact hD r hr w0 hw0 (hrq ▸ hpw0)

lemma sum_over_parts (g : ℕ → ℤ) : ∀ parts : List (List ℕ),
    (parts.flatten.map g).sum =
      (parts.map (fun part => (part.map g).sum)).sum := by
  intro parts
  induction parts with
  | nil => rfl
  | cons part rest ih =>
    rw [List.flatten_cons, List.map_append, List.sum_append, ih, List.map_cons,
      List.sum_cons]

lemma step_wState : Step wState0 wState1 := by
  have hp : pairInCounts wState0.words wState0.counts (97, 97) :=
    ⟨0, by decide⟩
  exact Step.merge wState0 (97, 97) hp

lemma run_wState : Run 1 wState0 wState1 :=
  Run.succ 0 wState0 wState1 wState1 step_wState (Run.zero wState1)

/-- C3: for every Word, pair (left, right) and new id, merge_pair performs
exactly one left-to-right, non-overlapping, greedy scan: at each position, if
the current token equals left and the next token equals right, it emits the
new id and advances two positions; otherwise it emits the current token and
advances one position — that is, merge_pair coincides with the recursive
greedy scan on every input. -/
theorem mergePair_is_greedy_scan (ids : List ℕ) (a b c : ℕ) :
    mergePair ids a b c = mergeScan ids a b c :=
  mergePair_eq_scan ids a b c

/-- C6: for every Word, pair and new id, the length after merge_pair is at
most the original length, and strictly less whenever the targeted pair
occurred at least once in the original Word. -/
theorem mergePair_length (ids : List ℕ) (a b c : ℕ) :
    (mergePair ids a b c).length ≤ ids.length ∧
      ((a, b) ∈ pairsOf ids → (mergePair ids a b c).length < ids.length) := by
  rw [mergePair_eq_scan]
  exact ⟨mergeScan_length_le a b c ids, fun h => mergeScan_length_lt a b c ids h⟩

/-- Witness for C6 at a concrete input containing the targeted pair. -/
theorem mergePair_length_witness :
    (0, 1) ∈ pairsOf [0, 1, 2] ∧ (mergePair [0, 1, 2] 0 1 256).length < 3 :=
  ⟨by decide, (mergePair_length [0, 1, 2] 0 1 256).2 (by decide)⟩

/-- C10: applying a merge rule to a token sequence of fewer than two tokens
returns it unchanged, and encoding the empty byte sequence with any
MergeTable yields the empty token sequence. -/
theorem mergePair_short_input_and_empty_encode :
    (∀ (ids : List ℕ) (a b c : ℕ), ids.length < 2 → mergePair ids a b c = ids) ∧
    (∀ merges : List Pair, encodeCode merges [] = []) := by
  constructor
  · intro ids a b c h
    rw [mergePair, if_pos h]
  · intro merges
    rw [encode_scan_fold]
    exact foldl_nil_invariant (fun p => rfl) merges

/-- Witness for C10 at a one-token word and a one-rule table. -/
theorem mergePair_short_input_witness :
    ([5] : List ℕ).length < 2 ∧ mergePair [5] 0 1 256 = [5] ∧
      encodeCode [(0, 1)] [] = [] :=
  ⟨by decide, mergePair_short_input_and_empty_encode.1 [5] 0 1 256 (by decide),
    mergePair_short_input_and_empty_encode.2 [(0, 1)]⟩

/-- C4: the pair-frequency map of count_pairs_parallel equals the reference
definition: every index i with counts i nonzero and at least two tokens adds
counts i to each adjacent pair of words i, and all other words contribute
nothing. -/
theorem countPairs_matches_reference (words : List (List ℕ)) (counts : List ℤ)
    (p : Pair) : countPairs words counts p = refCount words counts p := by
  rw [countPairs_apply, refCount]
  refine congrArg List.sum (List.map_congr_left ?_)
  intro wc _
  rw [localCount_apply]
  by_cases h : wc.2 ≠ 0 ∧ 2 ≤ wc.1.length
  · rw [if_pos ⟨h.2, h.1⟩, if_pos h, indicator_sum]
  · rw [if_neg (fun hh => h ⟨hh.2, hh.1⟩), if_neg h]

/-- C5: the parallel reduction of count_pairs_parallel is exact — addMaps is
commutative and associative, and for every partitioning of the word indices
the fold of the per-part partial maps equals the sequential single-pass map. -/
theorem countPairs_parallel_refines :
    (∀ m1 m2 : Pair → ℤ, addMaps m1 m2 = addMaps m2 m1) ∧
    (∀ m1 m2 m3 : Pair → ℤ,
      addMaps (addMaps m1 m2) m3 = addMaps m1 (addMaps m2 m3)) ∧
    (∀ (words : List (List ℕ)) (counts : List ℤ) (parts : List (List ℕ)),
      counts.length = words.length →
      parts.flatten.Perm (List.range words.length) →
      (parts.map (partCount words counts)).foldl addMaps (fun _ => 0) =
        countPairs words counts) := by
  refine ⟨?_, ?_, ?_⟩
  · intro m1 m2
    funext p
    show m1 p + m2 p = m2 p + m1 p
    ring
  · intro m1 m2 m3
    funext p
    show (m1 p + m2 p) + m3 p = m1 p + (m2 p + m3 p)
    ring
  · intro words counts parts hlen hperm
    funext p
    rw [foldl_addMaps_apply, List.map_map]
    have h1 : (parts.map ((fun m => m p) ∘ partCount words counts)).sum =
        (parts.map (fun part =>
          (part.map (fun i => localAt words counts i p)).sum)).sum := by
      refine congrArg List.sum (List.map_congr_left ?_)
      intro part _
      exact partCount_apply words counts part p
    rw [h1, ← sum_over_parts]
    have h2 : (parts.flatten.map (fun i => localAt words counts i p)).sum =
        ((List.range words.length).map (fun i => localAt words counts i p)).sum :=
      List.Perm.sum_eq (hperm.map _)
    rw [h2, ← countPairs_eq_range_sum words counts hlen p]
    show (0 : ℤ) + countPairs words counts p = countPairs words counts p
    ring

/-- Witness for C5: a two-word corpus split into reversed singleton parts. -/
theorem countPairs_parallel_refines_witness :
    (([2, 3] : List ℤ).length = ([[0, 1], [1, 1]] : List (List ℕ)).length) ∧
    ([[1], [0]] : List (List ℕ)).flatten.Perm
      (List.range ([[0, 1], [1, 1]] : List (List ℕ)).length) ∧
    ([[1], [0]].map (partCount [[0, 1], [1, 1]] [2, 3])).foldl addMaps
      (fun _ => 0) = countPairs [[0, 1], [1, 1]] [2, 3] :=
  ⟨by decide, by decide,
    countPairs_parallel_refines.2.2 [[0, 1], [1, 1]] [2, 3] [[1], [0]]
      (by decide) (by decide)⟩

/-- C2 counterexample: two iteration orders of the same Pair-to-frequency
mapping — permutations of each other with distinct keys — make the source's
max_by_key selection return different pairs when two pairs tie for the
maximum, so the selection is not a pure function of the mapping. -/
theorem selectPair_order_dependent :
    ([((0, 0), (5 : ℤ)), ((0, 1), 5)] : List (Pair × ℤ)).Perm
        [((0, 1), (5 : ℤ)), ((0, 0), 5)] ∧
      selectPair [((0, 0), (5 : ℤ)), ((0, 1), 5)] ≠
        selectPair [((0, 1), (5 : ℤ)), ((0, 0), 5)] :=
  ⟨by decide, by decide⟩

/-- C2 (amended): merge selection always returns a pair whose frequency is
the maximum of the mapping; among tied maxima the result depends on the
iteration order, so it is a pure function of the mapping only when the
maximal entry is unique, in which case every iteration order returns it. -/
theorem selectPair_max_frequency :
    (∀ l : List (Pair × ℤ), l ≠ [] →
      ∃ e, e ∈ l ∧ selectPair l = some e.1 ∧ ∀ x ∈ l, x.2 ≤ e.2) ∧
    (∀ (l1 l2 : List (Pair × ℤ)) (e : Pair × ℤ), l1.Perm l2 → e ∈ l1 →
      (∀ x ∈ l1, x ≠ e → x.2 < e.2) →
      selectPair l1 = some e.1 ∧ selectPair l2 = some e.1) := by
  constructor
  · intro l hl
    obtain ⟨e, he, hmax, hb⟩ := maxEntry_max l hl
    exact ⟨e, he, by rw [selectPair, hmax]; rfl, hb⟩
  · intro l1 l2 e hperm he hu
    have h1 : maxEntry l1 = some e := maxEntry_unique he hu
    have h2 : maxEntry l2 = some e :=
      maxEntry_unique (hperm.mem_iff.mp he)
        (fun x hx => hu x (hperm.mem_iff.mpr hx))
    constructor
    · rw [selectPair, h1]
      rfl
    · rw [selectPair, h2]
      rfl

/-- Witness for the amended C2 on concrete mappings. -/
theorem selectPair_max_frequency_witness :
    (([((3, 4), (7 : ℤ))] : List (Pair × ℤ)) ≠ []) ∧
    (∃ e, e ∈ ([((3, 4), (7 : ℤ))] : List (Pair × ℤ)) ∧
      selectPair [((3, 4), (7 : ℤ))] = some e.1 ∧
      ∀ x ∈ ([((3, 4), (7 : ℤ))] : List (Pair × ℤ)), x.2 ≤ e.2) ∧
    (selectPair [((1, 2), (9 : ℤ)), ((2, 3), 4)] = some (1, 2) ∧
      selectPair [((2, 3), (4 : ℤ)), ((1, 2), 9)] = some (1, 2)) :=
  ⟨by decide, selectPair_max_frequency.1 _ (by decide),
    selectPair_max_frequency.2 [((1, 2), (9 : ℤ)), ((2, 3), 4)]
      [((2, 3), (4 : ℤ)), ((1, 2), 9)] ((1, 2), 9) (by decide) (by decide)
      (by decide)⟩

/-- C1 counterexample: on a table holding the same pair at positions 0 and 2,
the encoder's position() lookup substitutes 256 (the first index) where the
applied rule's own new id is 258, so the rewrite does not use the rule's own
new id and differs from the by-rule-id encoder. -/
theorem encode_duplicate_pair_mismatch :
    encodeCode [(257, 0), (0, 0), (257, 0)] [0, 0, 0] = [256] ∧
    encodeByRuleId [(257, 0), (0, 0), (257, 0)] [0, 0, 0] = [258] ∧
    encodeCode [(257, 0), (0, 0), (257, 0)] [0, 0, 0] ≠
      encodeByRuleId [(257, 0), (0, 0), (257, 0)] [0, 0, 0] := by
  refine ⟨?_, by decide, ?_⟩
  · rw [encode_scan_fold]
    decide
  · rw [encode_scan_fold]
    decide

/-- C1 (amended): when the Encoder applies a merge rule it substitutes 256
plus the index of the first rule holding that pair; whenever no pair occupies
two positions of the table — as in every table the training loop produces —
this equals each rule's own new id, and the encoder agrees with the
by-rule-id encoder on every input byte sequence. -/
theorem encode_own_id_of_nodup (merges : List Pair) (text : List ℕ)
    (h : merges.Nodup) : encodeCode merges text = encodeByRuleId merges text := by
  rw [encode_scan_fold, encodeByRuleId_eq_applyOwn]
  have := encode_fold_applyOwn merges [] text (by simpa using h)
  simpa using this

/-- Witness for the amended C1 on a duplicate-free table. -/
theorem encode_own_id_witness :
    ([(97, 98), (256, 99)] : List Pair).Nodup ∧
      encodeCode [(97, 98), (256, 99)] [97, 98, 99] =
        encodeByRuleId [(97, 98), (256, 99)] [97, 98, 99] :=
  ⟨by decide, encode_own_id_of_nodup _ _ (by decide)⟩

/-- C7: after every run of the training loop from an empty table, the i-th
rule's new id is 256 + i, hence the stored new ids are strictly increasing
and unique. -/
theorem merge_newids_are_index_based :
    ∀ (n : ℕ) (s0 s : TrainState), Run n s0 s → s0.merges = [] →
      s.merges.map Prod.snd =
          (List.range s.merges.length).map (fun i => 256 + i) ∧
        List.Pairwise (· < ·) (s.merges.map Prod.snd) := by
  intro n s0 s hrun h0
  have hok : newIdsOk s := by
    refine run_invariant step_newIdsOk hrun ?_
    unfold newIdsOk
    rw [h0]
    rfl
  refine ⟨hok, ?_⟩
  rw [hok]
  refine List.Pairwise.map _ ?_ (List.pairwise_lt_range _)
  intro a b hab
  omega

/-- Witness for C7 on a concrete one-merge run. -/
theorem merge_newids_witness :
    wState0.merges = [] ∧
      (wState1.merges.map Prod.snd =
          (List.range wState1.merges.length).map (fun i => 256 + i) ∧
        List.Pairwise (· < ·) (wState1.merges.map Prod.snd)) :=
  ⟨rfl, merge_newids_are_index_based 1 wState0 wState1 run_wState rfl⟩

/-- C8: for every training input and target vocab size, a run of the loop
within the iteration budget num_merges = vocab_size - 256 leaves at most that
many rules in the table — at every point during training and at
termination. -/
theorem merge_table_bounded :
    ∀ (vocabSize : ℤ) (n : ℕ) (s0 s : TrainState), Run n s0 s →
      s0.merges = [] → n ≤ numMerges vocabSize →
      s.merges.length ≤ numMerges vocabSize := by
  intro v n s0 s hrun h0 hn
  have h := run_merges_length hrun
  rw [h0] at h
  simp only [List.length_nil, Nat.zero_add] at h
  omega

/-- Witness for C8 with vocab size 300 on a concrete one-merge run. -/
theorem merge_table_bounded_witness :
    wState0.merges = [] ∧ 1 ≤ numMerges 300 ∧
      wState1.merges.length ≤ numMerges 300 :=
  ⟨rfl, by decide,
    merge_table_bounded 300 1 wState0 wState1 run_wState rfl (by decide)⟩

/-- C9: in every merge table the training loop produces from byte words, no
pair appears in more than one rule: the greedy rewrite removes every
non-overlapping occurrence of a merged pair, later merges only create
adjacencies mentioning their fresh id and so never recreate it, and a pair
absent from every word is never counted or selected again. -/
theorem merge_pairs_nodup :
    ∀ (n : ℕ) (s0 s : TrainState), Run n s0 s → initState s0 →
      (s.merges.map Prod.fst).Nodup := by
  intro n s0 s hrun h0
  have hinv : TrainInv s := by
    refine run_invariant inv_step hrun ?_
    obtain ⟨hm, hw⟩ := h0
    refine ⟨?_, ?_, ?_, ?_, ?_⟩
    · intro w hww t ht
      have h1 := hw w hww t ht
      rw [hm]
      simp only [List.length_nil]
      omega
    · unfold newIdsOk
      rw [hm]
      rfl
    · intro r hr
      rw [hm] at hr
      simp at hr
    · intro r hr
      rw [hm] at hr
      simp at hr
    · rw [hm]
      exact List.nodup_nil
  exact hinv.2.2.2.2

/-- Witness for C9 on a concrete one-merge run. -/
theorem merge_pairs_nodup_witness :
    initState wState0 ∧ (wState1.merges.map Prod.fst).Nodup :=
  ⟨⟨rfl, by decide⟩,
    merge_pairs_nodup 1 wState0 wState1 run_wState ⟨rfl, by decide⟩⟩
